import Mathlib

/-!
A verification development for `fileVersion.py`, a line-granularity file
fingerprinting and snapshot-diff engine.

Modelling conventions (shallow embedding):

* Byte strings (file lines, digests, paths, algorithm names) are `String`.
* A file is its list of lines, each line including its terminator, exactly as
  Python's `for line in file` yields them.  The filesystem is an association
  list from path to line list; `os.path.exists` is membership.
* Python `dict` objects are association lists with unique keys; assignment
  `d[k] = v` is `dictInsert` (update the first binding in place, else append),
  which is exactly CPython's insertion-ordered dict behaviour.
* A hash backend (`HashObject` in the source) carries its algorithm name and a
  single-shot hash function `String → String`.  An *incremental* hasher fed a
  sequence of chunks and then finalized equals the single-shot hash of the
  concatenation of the chunks (true of every backend the source wraps, and
  literally the implementation of the source's `HashWrapper`), so incremental
  hashing is modelled as `hash (strJoin chunks)`.
* The process-wide global `_HASHOBJ` (reassigned by every
  `VersionManager.__init__`) is threaded explicitly: each operation that reads
  the global takes the `HashObject` that is current at call time.
* The source runs single-threaded with a stable filesystem during one
  operation; mid-scan `IOError` is therefore not modelled (a path either
  exists for the whole build or does not).
-/

/-- A filesystem: association of path to file content (list of lines, each
line carrying its terminator). -/
abbrev FS := List (String × List String)

/-- `os.path.exists` / reading a file: first entry for the path. -/
def fsLines (fs : FS) (p : String) : Option (List String) :=
  match fs with
  | [] => none
  | e :: rest => if e.1 = p then some e.2 else fsLines rest p

/-- `os.path.exists(p)`. -/
def fsExists (fs : FS) (p : String) : Bool :=
  (fsLines fs p).isSome

/-- Python dict lookup `m[k]` (as an `Option`): first binding for `k`. -/
def dictLookup {α : Type} (m : List (String × α)) (k : String) : Option α :=
  match m with
  | [] => none
  | e :: rest => if e.1 = k then some e.2 else dictLookup rest k

/-- Python dict assignment `m[k] = v`: update the first binding for `k` in
place, or append a fresh binding (CPython insertion-ordered dicts). -/
def dictInsert {α : Type} (m : List (String × α)) (k : String) (v : α) :
    List (String × α) :=
  match m with
  | [] => [(k, v)]
  | e :: rest => if e.1 = k then (k, v) :: rest else e :: dictInsert rest k v

/-- Concatenation of byte-string chunks, as an incremental hasher consumes
them (`"".join` / successive `update` calls). -/
def strJoin (l : List String) : String :=
  l.foldl (fun acc s => acc ++ s) ""

/-- The source's `HashObject`: an algorithm name resolved to a single-shot
hash capability (`HashObject.hash`).  Incremental hashing is hash of the
concatenation of the updates (see the header comment). -/
structure HashObject where
  algorithm : String
  hash : String → String

/-- `HashObject(algorithm)` for a backend family `fam` mapping an algorithm
name to its hash function (the registry dispatch of the source's
`HashObject.__init__`, with the backends as an injected capability). -/
def HashObject.make (fam : String → String → String) (alg : String) :
    HashObject :=
  { algorithm := alg, hash := fam alg }

/-- The source's `FileVersion` object.  `processLineCallback` is not a data
field here: its effect (feeding each line to the owning table's composite
hasher) is modelled structurally in `VersionTable.build`. -/
structure FileVersion where
  hashAlgorithm : Option String
  filePath : String
  version : Option String
  lineHash : List (String × Nat)
deriving Repr, DecidableEq

/-- The loop body of `FileVersion.build`: for each line (1-based `lineno`),
`self.lineHash[_HASHOBJ.hash(line)] = lineno`.  `g` is the global `_HASHOBJ`
at build time. -/
def buildLineHashAux (g : HashObject) (m : List (String × Nat)) (lineno : Nat) :
    List String → List (String × Nat)
  | [] => m
  | line :: rest =>
      buildLineHashAux g (dictInsert m (g.hash line) lineno) (lineno + 1) rest

/-- The `lineHash` dict produced by `FileVersion.build` on a file with the
given lines (the constructor starts from the empty dict, numbering from 1). -/
def buildLineHash (g : HashObject) (lines : List String) :
    List (String × Nat) :=
  buildLineHashAux g [] 1 lines

/-- `FileVersion(filePath, hashAlgorithm=alg, ...)` followed by `build()`
while the process global `_HASHOBJ` is `g`: the whole-file digest is the
global's incremental hash over all line bytes, and `lineHash` maps each
line's global-hash digest to its (last) line number.  Note `alg` is only
*recorded*; every digest is computed by `g`. -/
def FileVersion.buildOn (g : HashObject) (alg : String) (p : String)
    (lines : List String) : FileVersion :=
  { hashAlgorithm := some alg
    filePath := p
    version := some (g.hash (strJoin lines))
    lineHash := buildLineHash g lines }

/-- The serializable per-file record (`FileVersion.normalize`). -/
structure FileRecord where
  filePath : String
  version : Option String
  lineHash : List (String × Nat)
deriving Repr, DecidableEq

/-- `FileVersion.normalize`. -/
def FileVersion.normalize (fv : FileVersion) : FileRecord :=
  { filePath := fv.filePath, version := fv.version, lineHash := fv.lineHash }

/-- The source's `VersionTable`. -/
structure VersionTable where
  fileList : List String
  hashAlgorithm : String
  fileVersions : Option (List (String × FileVersion))
  version : Option String
deriving Repr, DecidableEq

/-- Code-point lexicographic `<=` on character lists: Python's string
comparison. -/
def listLeB : List Char → List Char → Bool
  | [], _ => true
  | _ :: _, [] => false
  | a :: as, b :: bs =>
    if a.val.toNat < b.val.toNat then true
    else if b.val.toNat < a.val.toNat then false
    else listLeB as bs

/-- Python `<=` on strings (code-point lexicographic). -/
def pyStrLe (a b : String) : Prop :=
  listLeB a.data b.data = true

instance : DecidableRel pyStrLe :=
  fun a b => inferInstanceAs (Decidable (listLeB a.data b.data = true))

/-- Python `sorted` on a list of strings.  The source only sorts string
lists; any two sort keys that compare equal are the identical string, so the
stable sort of the source produces the unique sorted permutation, which any
correct sort (here insertion sort) also produces. -/
def pySort (l : List String) : List String :=
  List.insertionSort pyStrLe l

/-- `VersionTable.__init__(fileList, hashAlgorithm)`: stores `sorted(fileList)`;
`fileVersions` and `version` start as `None`. -/
def VersionTable.init (fileList : List String) (alg : String) : VersionTable :=
  { fileList := pySort fileList
    hashAlgorithm := alg
    fileVersions := none
    version := none }

/-- The `fileVersions` dict built by `VersionTable.build`: paths of the (sorted)
file list in order, silently skipping paths that do not exist; `g` is the
global `_HASHOBJ` at build time and `alg` the table's recorded algorithm. -/
def VersionTable.buildFVs (g : HashObject) (fs : FS) (alg : String)
    (l : List String) : List (String × FileVersion) :=
  l.foldl (fun acc p =>
    match fsLines fs p with
    | none => acc
    | some lines => dictInsert acc p (FileVersion.buildOn g alg p lines)) []

/-- All line bytes of all existing tracked files, in file-list order: what the
table's shared composite hasher consumes via the per-line callback. -/
def collectLines (fs : FS) (l : List String) : List String :=
  l.foldl (fun acc p => acc ++ (fsLines fs p).getD []) []

/-- `VersionTable.build()` while the global `_HASHOBJ` is `g`: one
`FileVersion` per existing tracked path (each built file's lines also feed the
shared composite hasher, in order), then `version` is the finalized composite
digest.  The source interleaves the composite updates inside each file scan;
since incremental hashing is hash-of-concatenation, that equals hashing the
concatenation of `collectLines`. -/
def VersionTable.build (g : HashObject) (fs : FS) (t : VersionTable) :
    VersionTable :=
  { t with
    fileVersions := some (VersionTable.buildFVs g fs t.hashAlgorithm t.fileList)
    version := some (g.hash (strJoin (collectLines fs t.fileList))) }

/-- The persisted snapshot record (`VersionTable.normalize` output /
`VersionTable.read` input). -/
structure Record where
  version : Option String
  hashAlgorithm : String
  fileList : List String
  files : List (String × FileRecord)
deriving Repr, DecidableEq

/-- `VersionTable.normalize`.  Iterating a `None` `fileVersions` would raise
`TypeError` in Python; that is the `none` case. -/
def VersionTable.normalize (t : VersionTable) : Option Record :=
  match t.fileVersions with
  | none => none
  | some fvs =>
      some { version := t.version
             hashAlgorithm := t.hashAlgorithm
             fileList := t.fileList
             files := fvs.map (fun e => (e.1, e.2.normalize)) }

/-- `FileVersion(filePath, version, lineHash, hashAlgorithm)` as reconstructed
by `VersionTable.read` from one record entry. -/
def FileVersion.ofRecord (alg : String) (fr : FileRecord) : FileVersion :=
  { hashAlgorithm := some alg
    filePath := fr.filePath
    version := fr.version
    lineHash := fr.lineHash }

/-- The `fileVersions` dict rebuilt by `VersionTable.read`: one `FileVersion`
per record entry whose path still exists, reconstructed as
`FileVersion(filePath, version, lineHash, hashAlgorithm)`. -/
def VersionTable.readFVs (fs : FS) (alg : String)
    (files : List (String × FileRecord)) : List (String × FileVersion) :=
  files.foldl (fun acc e =>
    if fsExists fs e.1 then dictInsert acc e.1 (FileVersion.ofRecord alg e.2)
    else acc) []

/-- `VersionTable.read(obj)`: overwrite `hashAlgorithm`, `fileList`, `version`
from the record, then rebuild `fileVersions` for still-existing paths. -/
def VersionTable.read (fs : FS) (t : VersionTable) (obj : Record) :
    VersionTable :=
  { t with
    hashAlgorithm := obj.hashAlgorithm
    fileList := obj.fileList
    version := obj.version
    fileVersions := some (VersionTable.readFVs fs obj.hashAlgorithm obj.files) }

/-- The `DiffFile` namedtuple of `VersionManager.compare`. -/
structure DiffFile where
  missing : Bool
  new : Bool
  modifiedLines : List Nat
  missingLines : List Nat
deriving Repr, DecidableEq

/-- The exceptions `compare()` can raise: the two explicit `RuntimeError`s and
the `TypeError` from subscripting a `None` `fileVersions`. -/
inductive PyErr where
  | preconditionError
  | algorithmMismatch
  | typeError
deriving Repr, DecidableEq

/-- The source's `VersionManager`. -/
structure VersionManager where
  revisionFileName : String
  curVersions : VersionTable
  lastVersions : VersionTable
  doWrite : Bool
  diffs : Option (List (String × DiffFile))
deriving Repr, DecidableEq

/-- Python truthiness of a `VersionTable` instance: the class defines neither
`__bool__` nor `__len__`, so every instance is truthy.  This is the exact
value `all((self.curVersions, self.lastVersions))` sees in `compare()`. -/
def pyTruthy (_t : VersionTable) : Bool := true

/-- `VersionManager.__init__`: rebinds the process-global `_HASHOBJ` to a new
`HashObject(hashAlgorithm)` (returned second) and creates the two tables. -/
def VersionManager.init (fam : String → String → String)
    (revisionFileName : String) (fileList : List String)
    (hashAlgorithm : String) (write : Bool) : VersionManager × HashObject :=
  ({ revisionFileName := revisionFileName
     curVersions := VersionTable.init fileList hashAlgorithm
     lastVersions := VersionTable.init [] hashAlgorithm
     doWrite := write
     diffs := none },
   HashObject.make fam hashAlgorithm)

/-- `VersionManager.build` (the bound method `self.curVersions.build`), with
`g` the global `_HASHOBJ` at call time. -/
def VersionManager.build (g : HashObject) (fs : FS) (m : VersionManager) :
    VersionManager :=
  { m with curVersions := m.curVersions.build g fs }

/-- `VersionManager.read()`: `rec?` is `none` when the revision file does not
exist (early return, `lastVersions` untouched), otherwise the parsed record. -/
def VersionManager.readObj (fs : FS) (rec? : Option Record)
    (m : VersionManager) : VersionManager :=
  match rec? with
  | none => m
  | some rec => { m with lastVersions := m.lastVersions.read fs rec }

/-- `curFileSet - lastFileSet` (and symmetrically): the Python set difference,
as the deduplicated-list filter. -/
def newFilesOf (curSet lastSet : List String) : List String :=
  curSet.filter (fun p => decide (p ∉ lastSet))

/-- `lastFileSet - curFileSet`. -/
def removedFilesOf (curSet lastSet : List String) : List String :=
  lastSet.filter (fun p => decide (p ∉ curSet))

/-- `curFileSet & lastFileSet`. -/
def overlapFilesOf (curSet lastSet : List String) : List String :=
  curSet.filter (fun p => decide (p ∈ lastSet))

/-- `for p in ps: diffs[p] = value p` — a run of dict assignments. -/
def foldInsert {α : Type} (f : String → α) (ps : List String)
    (acc : List (String × α)) : List (String × α) :=
  ps.foldl (fun a p => dictInsert a p (f p)) acc

/-- Keys of a `lineHash` dict (`dict.keys()`). -/
def diffKeys (fv : FileVersion) : List String :=
  fv.lineHash.map Prod.fst

/-- One side of the overlap diff: `sorted(list(srcKeys - otherKeys))` (a sort
of the *digest strings*), then `[tbl[hsh] for hsh in ...]`.  The `getD 0` is
never reached: every digest in the difference is a key of `tbl`. -/
def lineDiff (srcKeys otherKeys : List String) (tbl : List (String × Nat)) :
    List Nat :=
  (pySort ((srcKeys.filter (fun d => decide (d ∉ otherKeys))).dedup)).map
    (fun d => (dictLookup tbl d).getD 0)

/-- The body of the overlapping-files loop of `compare()` for one path:
reproduces the evaluation order of the source (last fingerprint first, then
current), the `except KeyError` classification `DiffFile(missing=True,
new=True, [], [])`, and the uncaught `TypeError` when a `fileVersions` is
still `None`. -/
def overlapStep (cur last : Option (List (String × FileVersion)))
    (p : String) : Except PyErr DiffFile :=
  match last with
  | none => .error .typeError
  | some lt =>
    match dictLookup lt p with
    | none => .ok { missing := true, new := true
                    modifiedLines := [], missingLines := [] }
    | some lastFv =>
      match cur with
      | none => .error .typeError
      | some ct =>
        match dictLookup ct p with
        | none => .ok { missing := true, new := true
                        modifiedLines := [], missingLines := [] }
        | some curFv =>
          .ok { missing := false, new := false
                modifiedLines :=
                  lineDiff (diffKeys curFv) (diffKeys lastFv) curFv.lineHash
                missingLines :=
                  lineDiff (diffKeys lastFv) (diffKeys curFv) lastFv.lineHash }

/-- The overlapping-files loop: successive dict assignments into `diffs`; an
exception aborts the loop leaving the assignments made so far. -/
def overlapLoop (cur last : Option (List (String × FileVersion)))
    (acc : List (String × DiffFile)) :
    List String → List (String × DiffFile) × Option PyErr
  | [] => (acc, none)
  | p :: rest =>
    match overlapStep cur last p with
    | .error e => (acc, some e)
    | .ok df => overlapLoop cur last (dictInsert acc p df) rest

/-- The diff dict built by `compare()` after its two guards to: new files,
then removed files, then the overlapping-files loop. -/
def compareDiffs (fs : FS) (m : VersionManager) :
    List (String × DiffFile) × Option PyErr :=
  overlapLoop m.curVersions.fileVersions m.lastVersions.fileVersions
    (foldInsert (fun _p => { missing := true, new := false
                             modifiedLines := [], missingLines := [] })
      (removedFilesOf m.curVersions.fileList.dedup m.lastVersions.fileList.dedup)
      (foldInsert (fun p => { missing := !fsExists fs p, new := true
                              modifiedLines := [], missingLines := [] })
        (newFilesOf m.curVersions.fileList.dedup m.lastVersions.fileList.dedup)
        []))
  (overlapFilesOf m.curVersions.fileList.dedup m.lastVersions.fileList.dedup)

/-- `VersionManager.compare()`.  Returns the mutated manager together with the
exception raised, if any: `self.diffs` is only assigned after the two guard
checks, and an exception in the overlap loop leaves it partially filled. -/
def VersionManager.compare (fs : FS) (m : VersionManager) :
    VersionManager × Option PyErr :=
  if !(pyTruthy m.curVersions && pyTruthy m.lastVersions) then
    (m, some PyErr.preconditionError)
  else if m.curVersions.hashAlgorithm ≠ m.lastVersions.hashAlgorithm then
    (m, some PyErr.algorithmMismatch)
  else
    ({ m with diffs := some (compareDiffs fs m).1 }, (compareDiffs fs m).2)

/-- The classification label `versionReport` prints for one diff entry; the
fourth branch is the source's `len(diffObj.modifiedLines) == 0 and
len(diffObj.modifiedLines) == 0` — `modifiedLines` tested twice, verbatim. -/
def DiffFile.reportLabel (d : DiffFile) : String :=
  if d.missing && d.new then "[new & missing]"
  else if d.missing then "[missing]"
  else if d.new then "[new]"
  else if decide (d.modifiedLines.length = 0) &&
          decide (d.modifiedLines.length = 0) then "[unchanged]"
  else "[modified]"

/-- `hasVersionChanged()`. -/
def VersionManager.hasVersionChanged (m : VersionManager) : Bool :=
  m.curVersions.version ≠ m.lastVersions.version

/-- The line number of the last occurrence, in file order, of a line hashing
to digest `d` (1-based, starting the numbering at `lineno`).  Specification
side: used to state the last-write-wins claim. -/
def lastOccLine (g : HashObject) (d : String) (lineno : Nat) :
    List String → Option Nat
  | [] => none
  | line :: rest =>
    match lastOccLine g d (lineno + 1) rest with
    | some n => some n
    | none => if g.hash line = d then some lineno else none

/-- A concrete injective backend family used by concrete scenarios: the digest
records the algorithm name and the payload.  (Any backend is admissible; the
engine treats digests as opaque comparable tokens.) -/
def demoFam : String → String → String :=
  fun alg s => alg ++ "|" ++ s

/-- The concrete `HashObject('md5')` under `demoFam`. -/
def demoG : HashObject := HashObject.make demoFam "md5"

/-! ### Concrete scenarios used by the closed theorems below

Each scenario is reachable through the public lifecycle (`__init__`, `read`,
`build`, `compare`). -/

/-- Current file `f` holds two lines whose digests sort in the opposite order
to their line numbers; the last snapshot knows `f` with an empty line-digest
map. -/
def c1fs : FS := [("f", ["b\n", "a\n"])]

/-- The persisted record the `c1` manager reads as its last snapshot. -/
def c1rec : Record :=
  { version := some "old", hashAlgorithm := "md5", fileList := ["f"],
    files := [("f", { filePath := "f", version := some "old",
                      lineHash := [] })] }

/-- The `c1` manager after `__init__`, `read()` and `build()`. -/
def c1m : VersionManager :=
  VersionManager.build demoG c1fs
    (VersionManager.readObj c1fs (some c1rec)
      (VersionManager.init demoFam "rev" ["f"] "md5" false).1)

/-- The current fingerprint of `f` in the `c1` scenario. -/
def c1curFv : FileVersion :=
  { hashAlgorithm := some "md5", filePath := "f", version := some "md5|b\na\n",
    lineHash := [("md5|b\n", 1), ("md5|a\n", 2)] }

/-- The last fingerprint of `f` in the `c1` scenario. -/
def c1lastFv : FileVersion :=
  { hashAlgorithm := some "md5", filePath := "f", version := some "old",
    lineHash := [] }

/-- The diffs dict `compare()` computes in the `c1` scenario. -/
def c1d : List (String × DiffFile) :=
  [("f", { missing := false, new := false, modifiedLines := [2, 1],
           missingLines := [] })]

/-- A freshly constructed manager: `compare()` is called before `read()` and
`build()`. -/
def c2m : VersionManager :=
  (VersionManager.init demoFam "rev" ["a.txt"] "md5" false).1

/-- Filesystem for the rebound-global scenario. -/
def c3fs : FS := [("f", ["x\n"])]

/-- The global hash object after a second manager with algorithm `sha1` is
constructed (its `__init__` rebinds `_HASHOBJ`). -/
def c3g2 : HashObject := (VersionManager.init demoFam "r2" [] "sha1" false).2

/-- The first manager's table (constructed with algorithm `md5`) built while
the global is the second manager's `sha1` hash object. -/
def c3built : VersionTable :=
  VersionTable.build c3g2 c3fs
    (VersionManager.init demoFam "r1" ["f"] "md5" false).1.curVersions

/-- The fingerprint the `c3` build produces: algorithm recorded as `md5`,
digests computed with `sha1`. -/
def c3fv : FileVersion :=
  { hashAlgorithm := some "md5", filePath := "f", version := some "sha1|x\n",
    lineHash := [("sha1|x\n", 1)] }

/-- Last-snapshot filesystem: `a.txt` has two lines. -/
def c4fs1 : FS := [("a.txt", ["x\n", "y\n"])]

/-- Current filesystem: `a.txt` lost its second line. -/
def c4fs2 : FS := [("a.txt", ["x\n"])]

/-- Manager comparing the two `c4` snapshots (pure line deletion). -/
def c4m : VersionManager :=
  { (VersionManager.init demoFam "rev" ["a.txt"] "md5" false).1 with
    curVersions := VersionTable.build demoG c4fs2
      (VersionTable.init ["a.txt"] "md5")
    lastVersions := VersionTable.build demoG c4fs1
      (VersionTable.init ["a.txt"] "md5") }

/-- One path tracked only by the current snapshot, existing on disk. -/
def c5fs : FS := [("new.txt", ["x\n"])]

/-- Manager whose current snapshot tracks only `new.txt`. -/
def c5m : VersionManager :=
  (VersionManager.init demoFam "rev" ["new.txt"] "md5" false).1

/-- One tracked existing file for the round-trip scenario. -/
def c6fs : FS := [("a.txt", ["x\n"])]

/-- The record `normalize()` produces for the built `c6` table. -/
def c6rec : Record :=
  { version := some "md5|x\n", hashAlgorithm := "md5", fileList := ["a.txt"],
    files := [("a.txt", { filePath := "a.txt", version := some "md5|x\n",
                          lineHash := [("md5|x\n", 1)] })] }

/-- Last-snapshot filesystem for the reorder scenario. -/
def c7fs1 : FS := [("a.txt", ["x\n", "y\n"])]

/-- Current filesystem: the same two lines, in swapped order. -/
def c7fs2 : FS := [("a.txt", ["y\n", "x\n"])]

/-- Manager comparing the two `c7` snapshots. -/
def c7m : VersionManager :=
  { (VersionManager.init demoFam "rev" ["a.txt"] "md5" false).1 with
    curVersions := VersionTable.build demoG c7fs2
      (VersionTable.init ["a.txt"] "md5")
    lastVersions := VersionTable.build demoG c7fs1
      (VersionTable.init ["a.txt"] "md5") }

/-- A persisted record carrying a different hash algorithm. -/
def c8rec : Record :=
  { version := some "v", hashAlgorithm := "sha1", fileList := [], files := [] }

/-- Manager whose last snapshot was read from a `sha1` record while the
current one uses `md5`. -/
def c8m : VersionManager :=
  VersionManager.readObj [] (some c8rec)
    (VersionManager.init demoFam "rev" ["a.txt"] "md5" false).1

/-- Filesystem for the input-order-independence scenario. -/
def c10fs : FS := [("a", ["1\n"]), ("b", ["2\n"])]

/-! ## Order lemmas for the Python string order and `pySort` -/

theorem listLeB_total : ∀ a b : List Char, listLeB a b = true ∨ listLeB b a = true
  | [], _ => Or.inl rfl
  | _ :: _, [] => Or.inr rfl
  | x :: xs, y :: ys => by
    rcases Nat.lt_trichotomy x.val.toNat y.val.toNat with h | h | h
    · left; simp [listLeB, h]
    · have := listLeB_total xs ys
      simpa [listLeB, h, Nat.lt_irrefl] using this
    · right; simp [listLeB, h]

theorem listLeB_trans : ∀ a b c : List Char,
    listLeB a b = true → listLeB b c = true → listLeB a c = true
  | [], _, _, _, _ => rfl
  | x :: xs, [], c, hab, _ => by simp [listLeB] at hab
  | x :: xs, y :: ys, [], _, hbc => by simp [listLeB] at hbc
  | x :: xs, y :: ys, z :: zs, hab, hbc => by
    simp only [listLeB] at hab hbc ⊢
    rcases Nat.lt_trichotomy x.val.toNat y.val.toNat with hxy | hxy | hxy
    · rcases Nat.lt_trichotomy y.val.toNat z.val.toNat with hyz | hyz | hyz
      · simp [Nat.lt_trans hxy hyz]
      · simp [hyz ▸ hxy]
      · simp [Nat.lt_asymm hyz, hyz] at hbc
    · rcases Nat.lt_trichotomy y.val.toNat z.val.toNat with hyz | hyz | hyz
      · simp [hxy ▸ hyz]
      · have hxz : ¬ x.val.toNat < z.val.toNat := by omega
        have hzx : ¬ z.val.toNat < x.val.toNat := by omega
        simp only [if_neg hxz, if_neg hzx]
        simp [hxy, Nat.lt_irrefl] at hab
        simp [hyz, Nat.lt_irrefl] at hbc
        exact listLeB_trans xs ys zs hab hbc
      · simp [Nat.lt_asymm hyz, hyz] at hbc
    · simp [Nat.lt_asymm hxy, hxy] at hab

theorem listLeB_antisymm : ∀ a b : List Char,
    listLeB a b = true → listLeB b a = true → a = b
  | [], [], _, _ => rfl
  | [], _ :: _, _, hba => by simp [listLeB] at hba
  | _ :: _, [], hab, _ => by simp [listLeB] at hab
  | x :: xs, y :: ys, hab, hba => by
    simp only [listLeB] at hab hba
    rcases Nat.lt_trichotomy x.val.toNat y.val.toNat with h | h | h
    · simp [Nat.lt_asymm h, h] at hba
    · have hx : x = y := Char.ext (UInt32.toNat.inj h)
      simp [h, Nat.lt_irrefl] at hab hba
      exact hx ▸ congrArg (x :: ·) (listLeB_antisymm xs ys hab hba)
    · simp [Nat.lt_asymm h, h] at hab

theorem pyStrLe_total (a b : String) : pyStrLe a b ∨ pyStrLe b a :=
  listLeB_total a.data b.data

theorem pyStrLe_trans {a b c : String} (h1 : pyStrLe a b) (h2 : pyStrLe b c) :
    pyStrLe a c :=
  listLeB_trans a.data b.data c.data h1 h2

theorem pyStrLe_antisymm {a b : String} (h1 : pyStrLe a b) (h2 : pyStrLe b a) :
    a = b :=
  String.ext (listLeB_antisymm a.data b.data h1 h2)

theorem pySort_sorted (l : List String) : List.Sorted pyStrLe (pySort l) :=
  @List.sorted_insertionSort _ pyStrLe _ ⟨pyStrLe_total⟩
    ⟨fun _ _ _ => pyStrLe_trans⟩ l

theorem pySort_perm (l : List String) : (pySort l).Perm l :=
  List.perm_insertionSort pyStrLe l

theorem pySort_eq_of_perm {l1 l2 : List String} (h : l1.Perm l2) :
    pySort l1 = pySort l2 :=
  @List.eq_of_perm_of_sorted _ pyStrLe ⟨fun _ _ => pyStrLe_antisymm⟩ _ _
    (((pySort_perm l1).trans h).trans (pySort_perm l2).symm)
    (pySort_sorted l1) (pySort_sorted l2)

theorem mem_pySort {l : List String} {a : String} : a ∈ pySort l ↔ a ∈ l :=
  (pySort_perm l).mem_iff

/-! ## Dict lemmas -/

theorem dictLookup_dictInsert_self {α : Type} (m : List (String × α))
    (k : String) (v : α) : dictLookup (dictInsert m k v) k = some v := by
  induction m with
  | nil => simp [dictInsert, dictLookup]
  | cons e rest ih =>
    by_cases h : e.1 = k
    · simp [dictInsert, dictLookup, h]
    · simp [dictInsert, dictLookup, h, ih]

theorem dictLookup_dictInsert_ne {α : Type} (m : List (String × α))
    (k k' : String) (v : α) (h : k' ≠ k) :
    dictLookup (dictInsert m k v) k' = dictLookup m k' := by
  induction m with
  | nil => simp [dictInsert, dictLookup, Ne.symm h]
  | cons e rest ih =>
    by_cases he : e.1 = k
    · simp [dictInsert, dictLookup, he, Ne.symm h]
    · by_cases he' : e.1 = k'
      · simp [dictInsert, dictLookup, he, he', h]
      · simp [dictInsert, dictLookup, he, he', h, ih]

theorem dictLookup_foldInsert {α : Type} (f : String → α) (ps : List String)
    (acc : List (String × α)) (q : String) :
    dictLookup (foldInsert f ps acc) q =
      if q ∈ ps then some (f q) else dictLookup acc q := by
  induction ps generalizing acc with
  | nil => simp [foldInsert]
  | cons p rest ih =>
    simp only [foldInsert, List.foldl_cons] at *
    rw [ih]
    by_cases hq : q = p
    · subst hq
      by_cases hr : q ∈ rest
      · simp [hr]
      · simp [hr, dictLookup_dictInsert_self]
    · by_cases hr : q ∈ rest
      · simp [hr, hq]
      · simp [hr, hq, dictLookup_dictInsert_ne _ _ _ _ hq]

theorem dictLookup_map_value {α β : Type} (g : α → β)
    (m : List (String × α)) (k : String) :
    dictLookup (m.map (fun e => (e.1, g e.2))) k =
      (dictLookup m k).map g := by
  induction m with
  | nil => simp [dictLookup]
  | cons e rest ih =>
    by_cases h : e.1 = k
    · simp [dictLookup, h]
    · simp [dictLookup, h, ih]

theorem keys_dictInsert {α : Type} (m : List (String × α)) (k k' : String)
    (v : α) : k' ∈ (dictInsert m k v).map Prod.fst ↔
      k' = k ∨ k' ∈ m.map Prod.fst := by
  induction m with
  | nil => simp [dictInsert]
  | cons e rest ih =>
    by_cases h : e.1 = k
    · subst h
      simp [dictInsert]
    · simp [dictInsert, h, ih]
      tauto

theorem nodup_keys_dictInsert {α : Type} (m : List (String × α))
    (k : String) (v : α) (h : (m.map Prod.fst).Nodup) :
    ((dictInsert m k v).map Prod.fst).Nodup := by
  induction m with
  | nil => simp [dictInsert]
  | cons e rest ih =>
    simp only [List.map_cons, List.nodup_cons] at h
    by_cases he : e.1 = k
    · subst he
      simpa [dictInsert, List.nodup_cons] using h
    · simp only [dictInsert, if_neg he, List.map_cons, List.nodup_cons]
      refine ⟨fun hmem => ?_, ih h.2⟩
      rw [keys_dictInsert] at hmem
      rcases hmem with rfl | hmem
      · exact he rfl
      · exact h.1 hmem

theorem dictLookup_isSome_iff_mem_keys {α : Type} (m : List (String × α))
    (k : String) : (dictLookup m k).isSome ↔ k ∈ m.map Prod.fst := by
  induction m with
  | nil => simp [dictLookup]
  | cons e rest ih =>
    by_cases h : e.1 = k
    · simp [dictLookup, h]
    · simp [dictLookup, h, ih, Ne.symm h]

/-! ## Lemmas about the overlap loop -/

theorem overlapLoop_lookup_not_mem (cur last : Option (List (String × FileVersion))) :
    ∀ (ps : List String) (acc : List (String × DiffFile)) (p : String),
      p ∉ ps →
      dictLookup (overlapLoop cur last acc ps).1 p = dictLookup acc p
  | [], acc, p, _ => by simp [overlapLoop]
  | q :: rest, acc, p, hp => by
    simp only [List.mem_cons, not_or] at hp
    cases hstep : overlapStep cur last q with
    | error e => simp [overlapLoop, hstep]
    | ok df =>
      simp only [overlapLoop, hstep]
      rw [overlapLoop_lookup_not_mem cur last rest _ p hp.2,
        dictLookup_dictInsert_ne _ _ _ _ hp.1]

theorem overlapLoop_ok_of_none (cur last : Option (List (String × FileVersion))) :
    ∀ (ps : List String) (acc : List (String × DiffFile)),
      (overlapLoop cur last acc ps).2 = none →
      ∀ p ∈ ps, ∃ df, overlapStep cur last p = .ok df
  | [], _, _, p, hp => by simp at hp
  | q :: rest, acc, h, p, hp => by
    cases hstep : overlapStep cur last q with
    | error e => simp [overlapLoop, hstep] at h
    | ok df =>
      simp only [overlapLoop, hstep] at h
      rcases List.mem_cons.mp hp with rfl | hrest
      · exact ⟨df, hstep⟩
      · exact overlapLoop_ok_of_none cur last rest _ h p hrest

theorem overlapLoop_lookup_mem (cur last : Option (List (String × FileVersion))) :
    ∀ (ps : List String) (acc : List (String × DiffFile)) (p : String)
      (df : DiffFile), p ∈ ps →
      (overlapLoop cur last acc ps).2 = none →
      overlapStep cur last p = .ok df →
      dictLookup (overlapLoop cur last acc ps).1 p = some df
  | [], _, _, _, hp, _, _ => by simp at hp
  | q :: rest, acc, p, df, hp, hnone, hstep => by
    cases hq : overlapStep cur last q with
    | error e => simp [overlapLoop, hq] at hnone
    | ok dfq =>
      simp only [overlapLoop, hq] at hnone ⊢
      by_cases hpr : p ∈ rest
      · exact overlapLoop_lookup_mem cur last rest _ p df hpr hnone hstep
      · rcases List.mem_cons.mp hp with rfl | h
        · rw [hstep] at hq
          have hdf : df = dfq := by exact (Except.ok.injEq _ _ ▸ congrArg id hq : df = dfq)
        
          rw [overlapLoop_lookup_not_mem cur last rest _ p hpr,
            dictLookup_dictInsert_self, hdf]
        · exact absurd h hpr

/-! ## Lemmas about `VersionTable.build` / `read` internals -/

theorem buildFVs_fold_lookup (g : HashObject) (fs : FS) (alg : String) :
    ∀ (l : List String) (acc : List (String × FileVersion)) (q : String),
      dictLookup (l.foldl (fun acc p =>
        match fsLines fs p with
        | none => acc
        | some lines => dictInsert acc p (FileVersion.buildOn g alg p lines)) acc) q =
      if q ∈ l ∧ (fsLines fs q).isSome then
        some (FileVersion.buildOn g alg q ((fsLines fs q).getD []))
      else dictLookup acc q
  | [], acc, q => by simp
  | p :: rest, acc, q => by
    simp only [List.foldl_cons]
    by_cases hqp : q = p
    · subst hqp
      cases hfl : fsLines fs q with
      | none =>
        rw [buildFVs_fold_lookup g fs alg rest acc q]
        simp [hfl]
      | some lines =>
        rw [buildFVs_fold_lookup g fs alg rest _ q]
        by_cases hqr : q ∈ rest
        · simp [hfl, hqr]
        · simp [hfl, hqr, dictLookup_dictInsert_self]
    · cases hfl : fsLines fs p with
      | none =>
        rw [buildFVs_fold_lookup g fs alg rest acc q]
        simp [List.mem_cons, hqp]
      | some lines =>
        rw [buildFVs_fold_lookup g fs alg rest _ q]
        simp [List.mem_cons, hqp, dictLookup_dictInsert_ne _ _ _ _ hqp]

theorem buildFVs_lookup (g : HashObject) (fs : FS) (alg : String)
    (l : List String) (q : String) :
    dictLookup (VersionTable.buildFVs g fs alg l) q =
      if q ∈ l ∧ (fsLines fs q).isSome then
        some (FileVersion.buildOn g alg q ((fsLines fs q).getD []))
      else none := by
  rw [VersionTable.buildFVs, buildFVs_fold_lookup]
  rfl

theorem buildFVs_keys_nodup (g : HashObject) (fs : FS) (alg : String) :
    ∀ (l : List String) (acc : List (String × FileVersion)),
      (acc.map Prod.fst).Nodup →
      (((l.foldl (fun acc p =>
        match fsLines fs p with
        | none => acc
        | some lines => dictInsert acc p (FileVersion.buildOn g alg p lines)) acc)).map
          Prod.fst).Nodup
  | [], acc, h => h
  | p :: rest, acc, h => by
    simp only [List.foldl_cons]
    cases hfl : fsLines fs p with
    | none => exact buildFVs_keys_nodup g fs alg rest acc h
    | some lines =>
      exact buildFVs_keys_nodup g fs alg rest _ (nodup_keys_dictInsert _ _ _ h)

theorem readFVs_fold_lookup (fs : FS) (alg : String) :
    ∀ (files : List (String × FileRecord)) (acc : List (String × FileVersion))
      (q : String), ((files.map Prod.fst).Nodup) →
      dictLookup (files.foldl (fun acc e =>
        if fsExists fs e.1 then dictInsert acc e.1 (FileVersion.ofRecord alg e.2)
        else acc) acc) q =
      match dictLookup files q with
      | some fr => if fsExists fs q then some (FileVersion.ofRecord alg fr)
                   else dictLookup acc q
      | none => dictLookup acc q
  | [], acc, q, _ => by simp [dictLookup]
  | e :: rest, acc, q, hnd => by
    simp only [List.map_cons, List.nodup_cons] at hnd
    simp only [List.foldl_cons]
    by_cases hqe : e.1 = q
    · subst hqe
      have hq : dictLookup (e :: rest) e.1 = some e.2 := by simp [dictLookup]
      rw [hq]
      have hqr : dictLookup rest e.1 = none := by
        cases hl : dictLookup rest e.1 with
        | none => rfl
        | some fr =>
          exact absurd ((dictLookup_isSome_iff_mem_keys rest e.1).mp
            (by simp [hl])) hnd.1
      by_cases hex : fsExists fs e.1
      · rw [readFVs_fold_lookup fs alg rest _ e.1 hnd.2, hqr]
        simp [hex, dictLookup_dictInsert_self]
      · rw [if_neg hex, readFVs_fold_lookup fs alg rest _ e.1 hnd.2, hqr]
        simp [hex]
    · have hq : dictLookup (e :: rest) q = dictLookup rest q := by
        simp [dictLookup, hqe]
      rw [hq]
      by_cases hex : fsExists fs e.1
      · rw [if_pos hex, readFVs_fold_lookup fs alg rest _ q hnd.2,
          dictLookup_dictInsert_ne _ _ _ _ (fun h => hqe h.symm)]
      · rw [if_neg hex, readFVs_fold_lookup fs alg rest _ q hnd.2]

theorem readFVs_lookup (fs : FS) (alg : String)
    (files : List (String × FileRecord)) (q : String)
    (hnd : (files.map Prod.fst).Nodup) :
    dictLookup (VersionTable.readFVs fs alg files) q =
      match dictLookup files q with
      | some fr => if fsExists fs q then some (FileVersion.ofRecord alg fr)
                   else none
      | none => none := by
  rw [VersionTable.readFVs, readFVs_fold_lookup fs alg files [] q hnd]
  cases dictLookup files q with
  | none => rfl
  | some fr =>
    by_cases hex : fsExists fs q
    · simp [hex]
    · simp [hex, dictLookup]

/-! ## Lemmas about `buildLineHash` -/

theorem buildLineHashAux_lookup (g : HashObject) (d : String) :
    ∀ (lines : List String) (m : List (String × Nat)) (lineno : Nat),
      dictLookup (buildLineHashAux g m lineno lines) d =
        match lastOccLine g d lineno lines with
        | some n => some n
        | none => dictLookup m d
  | [], m, lineno => by simp [buildLineHashAux, lastOccLine]
  | line :: rest, m, lineno => by
    simp only [buildLineHashAux, lastOccLine]
    rw [buildLineHashAux_lookup g d rest _ _]
    cases lastOccLine g d (lineno + 1) rest with
    | some n => rfl
    | none =>
      by_cases h : g.hash line = d
      · simp only [if_pos h]
        rw [← h, dictLookup_dictInsert_self]
      · simp only [if_neg h]
        rw [dictLookup_dictInsert_ne _ _ _ _ (fun hh => h hh.symm)]

theorem buildLineHashAux_keys_nodup (g : HashObject) :
    ∀ (lines : List String) (m : List (String × Nat)) (lineno : Nat),
      (m.map Prod.fst).Nodup →
      ((buildLineHashAux g m lineno lines).map Prod.fst).Nodup
  | [], _, _, h => h
  | line :: rest, m, lineno, h =>
    buildLineHashAux_keys_nodup g rest _ _ (nodup_keys_dictInsert _ _ _ h)

theorem mem_keys_buildLineHashAux (g : HashObject) (dg : String) :
    ∀ (lines : List String) (m : List (String × Nat)) (lineno : Nat),
      dg ∈ (buildLineHashAux g m lineno lines).map Prod.fst ↔
        (∃ line ∈ lines, g.hash line = dg) ∨ dg ∈ m.map Prod.fst
  | [], m, lineno => by simp [buildLineHashAux]
  | line :: rest, m, lineno => by
    simp only [buildLineHashAux]
    rw [mem_keys_buildLineHashAux g dg rest _ _, keys_dictInsert]
    simp only [List.mem_cons]
    constructor
    · rintro (⟨l, hl, rfl⟩ | rfl | hm)
      · exact Or.inl ⟨l, Or.inr hl, rfl⟩
      · exact Or.inl ⟨line, Or.inl rfl, rfl⟩
      · exact Or.inr hm
    · rintro (⟨l, rfl | hl, rfl⟩ | hm)
      · exact Or.inr (Or.inl rfl)
      · exact Or.inl ⟨l, hl, rfl⟩
      · exact Or.inr (Or.inr hm)

theorem mem_keys_buildLineHash (g : HashObject) (dg : String)
    (lines : List String) :
    dg ∈ (buildLineHash g lines).map Prod.fst ↔
      ∃ line ∈ lines, g.hash line = dg := by
  rw [buildLineHash, mem_keys_buildLineHashAux]
  simp

/-! ## Membership of the three path groups -/

theorem mem_newFilesOf {c l : List String} {p : String} :
    p ∈ newFilesOf c l ↔ p ∈ c ∧ p ∉ l := by
  simp [newFilesOf, List.mem_filter]

theorem mem_removedFilesOf {c l : List String} {p : String} :
    p ∈ removedFilesOf c l ↔ p ∈ l ∧ p ∉ c := by
  simp [removedFilesOf, List.mem_filter]

theorem mem_overlapFilesOf {c l : List String} {p : String} :
    p ∈ overlapFilesOf c l ↔ p ∈ c ∧ p ∈ l := by
  simp [overlapFilesOf, List.mem_filter]

/-! ## The master characterization of `compare()` on a successful run -/

theorem compare_spec (fs : FS) (m m' : VersionManager)
    (h : VersionManager.compare fs m = (m', none)) :
    m.curVersions.hashAlgorithm = m.lastVersions.hashAlgorithm ∧
    ∃ d : List (String × DiffFile), m'.diffs = some d ∧
      (∀ p, p ∈ m.curVersions.fileList → p ∉ m.lastVersions.fileList →
        dictLookup d p = some { missing := !fsExists fs p, new := true
                                modifiedLines := [], missingLines := [] }) ∧
      (∀ p, p ∉ m.curVersions.fileList → p ∈ m.lastVersions.fileList →
        dictLookup d p = some { missing := true, new := false
                                modifiedLines := [], missingLines := [] }) ∧
      (∀ p, p ∈ m.curVersions.fileList → p ∈ m.lastVersions.fileList →
        ∃ df, overlapStep m.curVersions.fileVersions m.lastVersions.fileVersions
            p = .ok df ∧
          dictLookup d p = some df) := by
  by_cases halg : m.curVersions.hashAlgorithm = m.lastVersions.hashAlgorithm
  case neg =>
    rw [VersionManager.compare] at h
    simp [pyTruthy, halg] at h
  case pos =>
    rw [VersionManager.compare] at h
    simp only [pyTruthy, Bool.and_self, Bool.not_true, Bool.false_eq_true,
      if_false, ne_eq, halg, not_true_eq_false, ite_false, Prod.mk.injEq] at h
    obtain ⟨hm', hsnd⟩ := h
    refine ⟨halg, (compareDiffs fs m).1, ?_, ?_, ?_, ?_⟩
    · rw [← hm']
    · intro p hpc hpl
      have hov : p ∉ overlapFilesOf m.curVersions.fileList.dedup
          m.lastVersions.fileList.dedup := by
        rw [mem_overlapFilesOf]
        rintro ⟨-, hl⟩
        exact hpl (List.mem_dedup.mp hl)
      have hrm : p ∉ removedFilesOf m.curVersions.fileList.dedup
          m.lastVersions.fileList.dedup := by
        rw [mem_removedFilesOf]
        rintro ⟨hl, -⟩
        exact hpl (List.mem_dedup.mp hl)
      have hnw : p ∈ newFilesOf m.curVersions.fileList.dedup
          m.lastVersions.fileList.dedup := by
        rw [mem_newFilesOf]
        exact ⟨List.mem_dedup.mpr hpc, fun hl => hpl (List.mem_dedup.mp hl)⟩
      rw [compareDiffs, overlapLoop_lookup_not_mem _ _ _ _ _ hov,
        dictLookup_foldInsert, if_neg hrm, dictLookup_foldInsert, if_pos hnw]
    · intro p hpc hpl
      have hov : p ∉ overlapFilesOf m.curVersions.fileList.dedup
          m.lastVersions.fileList.dedup := by
        rw [mem_overlapFilesOf]
        rintro ⟨hc, -⟩
        exact hpc (List.mem_dedup.mp hc)
      have hrm : p ∈ removedFilesOf m.curVersions.fileList.dedup
          m.lastVersions.fileList.dedup := by
        rw [mem_removedFilesOf]
        exact ⟨List.mem_dedup.mpr hpl, fun hc => hpc (List.mem_dedup.mp hc)⟩
      rw [compareDiffs, overlapLoop_lookup_not_mem _ _ _ _ _ hov,
        dictLookup_foldInsert, if_pos hrm]
    · intro p hpc hpl
      have hov : p ∈ overlapFilesOf m.curVersions.fileList.dedup
          m.lastVersions.fileList.dedup :=
        mem_overlapFilesOf.mpr ⟨List.mem_dedup.mpr hpc, List.mem_dedup.mpr hpl⟩
      have hsnd' : (compareDiffs fs m).2 = none := hsnd
      rw [compareDiffs] at hsnd'
      obtain ⟨df, hdf⟩ := overlapLoop_ok_of_none _ _ _ _ hsnd' p hov
      refine ⟨df, hdf, ?_⟩
      rw [compareDiffs]
      exact overlapLoop_lookup_mem _ _ _ _ p df hov hsnd' hdf

/-! ## Claim theorems -/

/-- C8: for every pair of snapshots whose `hashAlgorithm` identifiers differ,
`compare()` raises the algorithm-mismatch `RuntimeError` and returns the
manager unchanged — in particular no diffs mapping is computed. -/
theorem compare_algorithm_mismatch_raises (fs : FS) (m : VersionManager)
    (h : m.curVersions.hashAlgorithm ≠ m.lastVersions.hashAlgorithm) :
    VersionManager.compare fs m = (m, some PyErr.algorithmMismatch) := by
  rw [VersionManager.compare]
  simp [pyTruthy, h]

/-- Witness for C8: a manager whose last snapshot was read from a `sha1`
record while the current snapshot uses `md5`. -/
theorem compare_algorithm_mismatch_raises_witness :
    VersionManager.compare [] c8m = (c8m, some PyErr.algorithmMismatch) :=
  compare_algorithm_mismatch_raises [] c8m (by decide)

/-- C2 (code bug): on a freshly constructed manager — neither `read()` nor
`build()` has run — `compare()` does *not* raise the precondition
`RuntimeError`: the guard `all((self.curVersions, self.lastVersions))` is
always true because `VersionTable` instances are always truthy, so `compare()`
completes and stores a diffs mapping classifying the tracked path as new. -/
theorem compare_before_read_build_no_error :
    (VersionManager.compare [] c2m).2 = none ∧
    (VersionManager.compare [] c2m).1.diffs =
      some [("a.txt", { missing := true, new := true, modifiedLines := [],
                        missingLines := [] })] :=
  ⟨rfl, rfl⟩

/-- C4 (code bug): a file whose diff has an empty added-line list but a
non-empty removed-line list (here: `a.txt` lost its line 2) is labelled
`[unchanged]` by `versionReport`, because the source tests
`len(diffObj.modifiedLines) == 0` twice and never tests `missingLines`. -/
theorem report_labels_removed_only_file_unchanged :
    dictLookup ((VersionManager.compare c4fs2 c4m).1.diffs.getD []) "a.txt" =
      some { missing := false, new := false, modifiedLines := [],
             missingLines := [2] } ∧
    DiffFile.reportLabel { missing := false, new := false, modifiedLines := [],
                           missingLines := [2] } = "[unchanged]" :=
  ⟨by decide, rfl⟩

/-- C9: in the `lineHash` dict built for a file, looking up any digest yields
the line number of the *last* line hashing to it (last-write-wins), and the
dict holds exactly one entry per digest that occurs (and none otherwise). -/
theorem lineHash_last_write_wins (g : HashObject) (lines : List String)
    (d : String) :
    dictLookup (buildLineHash g lines) d = lastOccLine g d 1 lines ∧
    ((buildLineHash g lines).map Prod.fst).count d =
      (if (lastOccLine g d 1 lines).isSome then 1 else 0) := by
  have hlk : dictLookup (buildLineHash g lines) d = lastOccLine g d 1 lines := by
    rw [buildLineHash, buildLineHashAux_lookup]
    cases lastOccLine g d 1 lines <;> simp [dictLookup]
  refine ⟨hlk, ?_⟩
  have hnd : ((buildLineHash g lines).map Prod.fst).Nodup := by
    rw [buildLineHash]
    exact buildLineHashAux_keys_nodup g lines [] 1 (by simp)
  by_cases hs : (lastOccLine g d 1 lines).isSome
  · rw [if_pos hs]
    have hmem : d ∈ (buildLineHash g lines).map Prod.fst := by
      rw [← dictLookup_isSome_iff_mem_keys, hlk]
      exact hs
    exact List.count_eq_one_of_mem hnd hmem
  · rw [if_neg hs]
    have hmem : d ∉ (buildLineHash g lines).map Prod.fst := by
      rw [← dictLookup_isSome_iff_mem_keys, hlk]
      exact hs
    exact List.count_eq_zero_of_not_mem hmem

/-- C10: building a table from any permutation of the tracked-path list gives
the identical table — same stored `fileList` (the constructor sorts it), same
`fingerprints` mapping and same composite digest. -/
theorem build_tracked_list_order_independent (g : HashObject) (fs : FS)
    (l1 l2 : List String) (alg : String) (hperm : l1.Perm l2) :
    VersionTable.build g fs (VersionTable.init l1 alg) =
      VersionTable.build g fs (VersionTable.init l2 alg) := by
  have hinit : VersionTable.init l1 alg = VersionTable.init l2 alg := by
    unfold VersionTable.init
    rw [pySort_eq_of_perm hperm]
  rw [hinit]

/-- Witness for C10 at a two-element tracked set given in both orders. -/
theorem build_tracked_list_order_independent_witness :
    VersionTable.build demoG c10fs (VersionTable.init ["b", "a"] "md5") =
      VersionTable.build demoG c10fs (VersionTable.init ["a", "b"] "md5") :=
  build_tracked_list_order_independent demoG c10fs ["b", "a"] ["a", "b"] "md5"
    (by decide)

/-! ## Remaining claim theorems -/

/-- C5: on a successful `compare()`, every path in the union of the two
tracked-path lists is classified: current-only paths get `isNew=true` and
`missing` iff absent on disk with empty line lists; last-only paths get
`missing=true, isNew=false` with empty line lists; paths in both lists whose
fingerprint is absent from the current table's `fileVersions` get
`missing=true, isNew=true` with empty line lists. -/
theorem compare_union_classification (fs : FS) (m m' : VersionManager)
    (hcmp : VersionManager.compare fs m = (m', none)) :
    ∃ d : List (String × DiffFile), m'.diffs = some d ∧
      (∀ p, p ∈ m.curVersions.fileList → p ∉ m.lastVersions.fileList →
        dictLookup d p = some { missing := !fsExists fs p, new := true
                                modifiedLines := [], missingLines := [] }) ∧
      (∀ p, p ∉ m.curVersions.fileList → p ∈ m.lastVersions.fileList →
        dictLookup d p = some { missing := true, new := false
                                modifiedLines := [], missingLines := [] }) ∧
      (∀ p ct, p ∈ m.curVersions.fileList → p ∈ m.lastVersions.fileList →
        m.curVersions.fileVersions = some ct → dictLookup ct p = none →
        dictLookup d p = some { missing := true, new := true
                                modifiedLines := [], missingLines := [] }) := by
  obtain ⟨-, d, hd, h1, h2, h3⟩ := compare_spec fs m m' hcmp
  refine ⟨d, hd, h1, h2, ?_⟩
  intro p ct hpc hpl hct hnone
  obtain ⟨df, hstep, hlk⟩ := h3 p hpc hpl
  cases hl : m.lastVersions.fileVersions with
  | none =>
    rw [hl] at hstep
    simp [overlapStep] at hstep
  | some lt =>
    rw [hl, hct] at hstep
    simp only [overlapStep] at hstep
    cases hlf : dictLookup lt p with
    | none =>
      simp only [hlf] at hstep
      cases hstep
      exact hlk
    | some lastFv =>
      simp only [hlf, hnone] at hstep
      cases hstep
      exact hlk

/-- Witness for C5: the `c5` manager tracks only `new.txt`, which exists on
disk; `compare()` classifies it `isNew=true, missing=false` with empty line
lists. -/
theorem compare_union_classification_witness :
    dictLookup ((VersionManager.compare c5fs c5m).1.diffs.getD []) "new.txt" =
      some { missing := false, new := true, modifiedLines := [],
             missingLines := [] } := by
  obtain ⟨d, hd, h1, -, -⟩ := compare_union_classification c5fs c5m
    (VersionManager.compare c5fs c5m).1 (by decide)
  have h := h1 "new.txt" (by decide) (by decide)
  rw [hd]
  simpa using h

/-- Digests appearing in a built fingerprint's `lineHash` are exactly the
hashes of the file's lines. -/
theorem mem_diffKeys_buildOn (g : HashObject) (alg p : String)
    (L : List String) (dg : String) :
    dg ∈ diffKeys (FileVersion.buildOn g alg p L) ↔
      ∃ line ∈ L, g.hash line = dg :=
  mem_keys_buildLineHash g dg L

/-- If every digest of `srcKeys` also occurs in `otherKeys`, the
corresponding line-number list of the overlap diff is empty. -/
theorem lineDiff_eq_nil (srcKeys otherKeys : List String)
    (tbl : List (String × Nat)) (hsub : ∀ dg ∈ srcKeys, dg ∈ otherKeys) :
    lineDiff srcKeys otherKeys tbl = [] := by
  have hfil : srcKeys.filter (fun d => decide (d ∉ otherKeys)) = [] := by
    rw [List.filter_eq_nil_iff]
    intro a ha
    simp [hsub a ha]
  rw [lineDiff, hfil]
  rfl

/-- C7: if a path's current fingerprint was built from a permutation of the
lines its last fingerprint was built from (with pairwise digest-distinct
lines), a successful `compare()` reports zero added and zero removed lines
for that path. -/
theorem compare_reorder_insensitive (fs : FS) (m m' : VersionManager)
    (p : String) (g : HashObject) (alg1 alg2 : String) (L1 L2 : List String)
    (ct lt : List (String × FileVersion))
    (hcmp : VersionManager.compare fs m = (m', none))
    (hp2 : p ∈ m.curVersions.fileList) (hp1 : p ∈ m.lastVersions.fileList)
    (hct : m.curVersions.fileVersions = some ct)
    (hlt : m.lastVersions.fileVersions = some lt)
    (hcf : dictLookup ct p = some (FileVersion.buildOn g alg2 p L2))
    (hlf : dictLookup lt p = some (FileVersion.buildOn g alg1 p L1))
    (hinj : ∀ a ∈ L1, ∀ b ∈ L1, g.hash a = g.hash b → a = b)
    (hperm : L2.Perm L1) :
    ∃ d, m'.diffs = some d ∧
      dictLookup d p = some { missing := false, new := false
                              modifiedLines := [], missingLines := [] } := by
  obtain ⟨-, d, hd, -, -, h3⟩ := compare_spec fs m m' hcmp
  obtain ⟨df, hstep, hlk⟩ := h3 p hp2 hp1
  rw [hct, hlt] at hstep
  simp only [overlapStep, hcf, hlf] at hstep
  have hsub2 : ∀ dg ∈ diffKeys (FileVersion.buildOn g alg2 p L2),
      dg ∈ diffKeys (FileVersion.buildOn g alg1 p L1) := by
    intro dg hdg
    obtain ⟨line, hline, hh⟩ := (mem_diffKeys_buildOn g alg2 p L2 dg).mp hdg
    exact (mem_diffKeys_buildOn g alg1 p L1 dg).mpr
      ⟨line, hperm.subset hline, hh⟩
  have hsub1 : ∀ dg ∈ diffKeys (FileVersion.buildOn g alg1 p L1),
      dg ∈ diffKeys (FileVersion.buildOn g alg2 p L2) := by
    intro dg hdg
    obtain ⟨line, hline, hh⟩ := (mem_diffKeys_buildOn g alg1 p L1 dg).mp hdg
    exact (mem_diffKeys_buildOn g alg2 p L2 dg).mpr
      ⟨line, hperm.symm.subset hline, hh⟩
  rw [lineDiff_eq_nil _ _ _ hsub2, lineDiff_eq_nil _ _ _ hsub1] at hstep
  cases hstep
  exact ⟨d, hd, hlk⟩

/-- Witness for C7: `a.txt` holds lines `x\n`, `y\n` in the last snapshot and
`y\n`, `x\n` in the current one; `compare()` reports no added and no removed
lines. -/
theorem compare_reorder_insensitive_witness :
    ∃ d, (VersionManager.compare c7fs2 c7m).1.diffs = some d ∧
      dictLookup d "a.txt" = some { missing := false, new := false
                                    modifiedLines := [], missingLines := [] } :=
  compare_reorder_insensitive c7fs2 c7m (VersionManager.compare c7fs2 c7m).1
    "a.txt" demoG "md5" "md5" ["x\n", "y\n"] ["y\n", "x\n"]
    [("a.txt", FileVersion.buildOn demoG "md5" "a.txt" ["y\n", "x\n"])]
    [("a.txt", FileVersion.buildOn demoG "md5" "a.txt" ["x\n", "y\n"])]
    (by decide) (by decide) (by decide) (by decide) (by decide) (by decide)
    (by decide) (by decide) (by decide)

/-- C1 (amended): for a path with a fingerprint in both snapshots, a
successful `compare()` stores as added (resp. removed) lines exactly the
current (resp. last) line numbers of the digests in the respective set
difference — but enumerated in ascending order of the *digest strings*
(`sorted()` is applied to the digests before the line-number lookup), not
sorted ascending by line number. -/
theorem compare_overlap_lists_digest_sorted (fs : FS) (m m' : VersionManager)
    (p : String) (ct lt : List (String × FileVersion))
    (curFv lastFv : FileVersion) (d : List (String × DiffFile)) (df : DiffFile)
    (hcmp : VersionManager.compare fs m = (m', none))
    (hp2 : p ∈ m.curVersions.fileList) (hp1 : p ∈ m.lastVersions.fileList)
    (hct : m.curVersions.fileVersions = some ct)
    (hlt : m.lastVersions.fileVersions = some lt)
    (hcf : dictLookup ct p = some curFv)
    (hlf : dictLookup lt p = some lastFv)
    (hd : m'.diffs = some d) (hdf : dictLookup d p = some df) :
    df.missing = false ∧ df.new = false ∧
    (∃ ds : List String, List.Sorted pyStrLe ds ∧ ds.Nodup ∧
      (∀ dg, dg ∈ ds ↔ dg ∈ diffKeys curFv ∧ dg ∉ diffKeys lastFv) ∧
      df.modifiedLines =
        ds.map (fun dg => (dictLookup curFv.lineHash dg).getD 0)) ∧
    (∃ es : List String, List.Sorted pyStrLe es ∧ es.Nodup ∧
      (∀ dg, dg ∈ es ↔ dg ∈ diffKeys lastFv ∧ dg ∉ diffKeys curFv) ∧
      df.missingLines =
        es.map (fun dg => (dictLookup lastFv.lineHash dg).getD 0)) := by
  obtain ⟨-, d', hd', -, -, h3⟩ := compare_spec fs m m' hcmp
  rw [hd] at hd'
  cases Option.some.inj hd'
  obtain ⟨df', hstep, hlk⟩ := h3 p hp2 hp1
  rw [hlk] at hdf
  cases Option.some.inj hdf
  rw [hct, hlt] at hstep
  simp only [overlapStep, hcf, hlf] at hstep
  cases hstep
  refine ⟨rfl, rfl, ?_, ?_⟩
  · refine ⟨pySort (((diffKeys curFv).filter
      (fun dg => decide (dg ∉ diffKeys lastFv))).dedup),
      pySort_sorted _, ?_, ?_, rfl⟩
    · exact (pySort_perm _).nodup_iff.mpr (List.nodup_dedup _)
    · intro dg
      rw [mem_pySort, List.mem_dedup, List.mem_filter]
      simp
  · refine ⟨pySort (((diffKeys lastFv).filter
      (fun dg => decide (dg ∉ diffKeys curFv))).dedup),
      pySort_sorted _, ?_, ?_, rfl⟩
    · exact (pySort_perm _).nodup_iff.mpr (List.nodup_dedup _)
    · intro dg
      rw [mem_pySort, List.mem_dedup, List.mem_filter]
      simp

/-- C1 counterexample: in the `c1` scenario the added-line list stored for
`f` is `[2, 1]` (the digest of line 2 sorts before the digest of line 1),
which is not ascending — refuting the sorted-by-line-number reading. -/
theorem compare_modified_lines_not_sorted_cex :
    (dictLookup ((VersionManager.compare c1fs c1m).1.diffs.getD []) "f").map
      DiffFile.modifiedLines = some [2, 1] ∧
    ¬ List.Sorted (· ≤ ·) ([2, 1] : List Nat) :=
  ⟨by decide, by decide⟩

/-- Witness for the amended C1 at the `c1` scenario. -/
theorem compare_overlap_lists_digest_sorted_witness :
    DiffFile.missing { missing := false, new := false, modifiedLines := [2, 1]
                       missingLines := [] } = false ∧
    DiffFile.new { missing := false, new := false, modifiedLines := [2, 1]
                   missingLines := [] } = false ∧
    (∃ ds : List String, List.Sorted pyStrLe ds ∧ ds.Nodup ∧
      (∀ dg, dg ∈ ds ↔ dg ∈ diffKeys c1curFv ∧ dg ∉ diffKeys c1lastFv) ∧
      DiffFile.modifiedLines { missing := false, new := false
                               modifiedLines := [2, 1], missingLines := [] } =
        ds.map (fun dg => (dictLookup c1curFv.lineHash dg).getD 0)) ∧
    (∃ es : List String, List.Sorted pyStrLe es ∧ es.Nodup ∧
      (∀ dg, dg ∈ es ↔ dg ∈ diffKeys c1lastFv ∧ dg ∉ diffKeys c1curFv) ∧
      DiffFile.missingLines { missing := false, new := false
                              modifiedLines := [2, 1], missingLines := [] } =
        es.map (fun dg => (dictLookup c1lastFv.lineHash dg).getD 0)) :=
  compare_overlap_lists_digest_sorted c1fs c1m
    (VersionManager.compare c1fs c1m).1 "f" [("f", c1curFv)] [("f", c1lastFv)]
    c1curFv c1lastFv c1d
    { missing := false, new := false, modifiedLines := [2, 1],
      missingLines := [] }
    (by decide) (by decide) (by decide) (by decide) (by decide) (by decide)
    (by decide) (by decide) (by decide)

/-- C6: loading (`read`) the record produced by `normalize()` of a built
table reproduces the table: same `fileList`, same `hashAlgorithm`, same
composite digest, and — for every path still existing on disk at load time —
the identical fingerprint entry (including `wholeDigest` and the digest→line
map). -/
theorem table_record_roundtrip (g : HashObject) (fs fs' : FS)
    (l : List String) (alg : String) (t0 : VersionTable) (rec : Record)
    (hrec : (VersionTable.build g fs (VersionTable.init l alg)).normalize =
      some rec) :
    (VersionTable.read fs' t0 rec).fileList =
      (VersionTable.build g fs (VersionTable.init l alg)).fileList ∧
    (VersionTable.read fs' t0 rec).hashAlgorithm =
      (VersionTable.build g fs (VersionTable.init l alg)).hashAlgorithm ∧
    (VersionTable.read fs' t0 rec).version =
      (VersionTable.build g fs (VersionTable.init l alg)).version ∧
    ∀ p, fsExists fs' p = true →
      dictLookup ((VersionTable.read fs' t0 rec).fileVersions.getD []) p =
        dictLookup ((VersionTable.build g fs
          (VersionTable.init l alg)).fileVersions.getD []) p := by
  have hrec' : (some
      { version := some (g.hash (strJoin (collectLines fs (pySort l)))),
        hashAlgorithm := alg,
        fileList := pySort l,
        files := (VersionTable.buildFVs g fs alg (pySort l)).map
          (fun e => (e.1, e.2.normalize)) } : Option Record) = some rec := hrec
  obtain rfl := (Option.some.inj hrec').symm
  refine ⟨rfl, rfl, rfl, ?_⟩
  intro p hex
  have hk : (((VersionTable.buildFVs g fs alg (pySort l)).map
      (fun e => (e.1, e.2.normalize))).map Prod.fst) =
      (VersionTable.buildFVs g fs alg (pySort l)).map Prod.fst := by
    simp [List.map_map, Function.comp]
  have hnd : ((((VersionTable.buildFVs g fs alg (pySort l)).map
      (fun e => (e.1, e.2.normalize))).map Prod.fst)).Nodup := by
    rw [hk]
    exact buildFVs_keys_nodup g fs alg (pySort l) [] (by simp)
  show dictLookup (VersionTable.readFVs fs' alg
      ((VersionTable.buildFVs g fs alg (pySort l)).map
        (fun e => (e.1, e.2.normalize)))) p =
    dictLookup (VersionTable.buildFVs g fs alg (pySort l)) p
  rw [readFVs_lookup _ _ _ _ hnd, dictLookup_map_value]
  cases hbl : dictLookup (VersionTable.buildFVs g fs alg (pySort l)) p with
  | none => rfl
  | some fv =>
    rw [buildFVs_lookup] at hbl
    by_cases hc : p ∈ pySort l ∧ (fsLines fs p).isSome
    · rw [if_pos hc] at hbl
      cases Option.some.inj hbl
      simp only [Option.map_some']
      rw [if_pos hex]
      rfl
    · rw [if_neg hc] at hbl
      cases hbl

/-- Witness for C6: a one-file table built over `c6fs`, serialized to
`c6rec`, reloaded over the same filesystem; the fingerprint of `a.txt` is
reproduced. -/
theorem table_record_roundtrip_witness :
    dictLookup ((VersionTable.read c6fs (VersionTable.init [] "md5")
        c6rec).fileVersions.getD []) "a.txt" =
      dictLookup ((VersionTable.build demoG c6fs
        (VersionTable.init ["a.txt"] "md5")).fileVersions.getD []) "a.txt" :=
  (table_record_roundtrip demoG c6fs c6fs ["a.txt"] "md5"
    (VersionTable.init [] "md5") c6rec (by decide)).2.2.2 "a.txt" (by decide)

/-- C3 (amended): every digest a built table contains — whole-file, per-line
and composite — is computed with the hash object bound to the process-global
`_HASHOBJ` at `build()` time (constructed for algorithm `galg`), while the
table merely *records* its own `hashAlgorithm`; the two coincide only when no
manager with a different algorithm was constructed in between. -/
theorem build_digests_follow_global (fam : String → String → String)
    (fs : FS) (l : List String) (alg galg p : String) (fv : FileVersion)
    (lines : List String) (hl : fsLines fs p = some lines)
    (hfv : dictLookup ((VersionTable.build (HashObject.make fam galg) fs
      (VersionTable.init l alg)).fileVersions.getD []) p = some fv) :
    fv.hashAlgorithm = some alg ∧
    fv.version = some (fam galg (strJoin lines)) ∧
    (∀ dg n, (dg, n) ∈ fv.lineHash → ∃ line ∈ lines, fam galg line = dg) ∧
    (VersionTable.build (HashObject.make fam galg) fs
        (VersionTable.init l alg)).version =
      some (fam galg (strJoin (collectLines fs (pySort l)))) := by
  have hfv' : dictLookup (VersionTable.buildFVs (HashObject.make fam galg)
      fs alg (pySort l)) p = some fv := hfv
  rw [buildFVs_lookup] at hfv'
  by_cases hc : p ∈ pySort l ∧ (fsLines fs p).isSome
  · rw [if_pos hc] at hfv'
    rw [hl] at hfv'
    simp only [Option.getD_some] at hfv'
    cases Option.some.inj hfv'
    refine ⟨rfl, rfl, ?_, rfl⟩
    intro dg n hmem
    have hkey : dg ∈ (buildLineHash (HashObject.make fam galg) lines).map
        Prod.fst :=
      List.mem_map_of_mem Prod.fst hmem
    obtain ⟨line, hline, hh⟩ :=
      (mem_keys_buildLineHash (HashObject.make fam galg) dg lines).mp hkey
    exact ⟨line, hline, hh⟩
  · rw [if_neg hc] at hfv'
    cases hfv'

/-- C3 counterexample: the `c3` table records algorithm `md5`, yet its file
digest is the `sha1` digest of the content, which differs from the digest its
own algorithm would produce — construction of a second (`sha1`) manager
between the table's construction and its `build()` rebinds the global hash
object. -/
theorem build_with_rebound_global_cex :
    c3built.hashAlgorithm = "md5" ∧
    (dictLookup (c3built.fileVersions.getD []) "f").map FileVersion.version =
      some (some (demoFam "sha1" "x\n")) ∧
    demoFam "sha1" "x\n" ≠ demoFam c3built.hashAlgorithm "x\n" :=
  ⟨rfl, by decide, by decide⟩

/-- Witness for the amended C3 at the `c3` scenario. -/
theorem build_digests_follow_global_witness :
    c3fv.hashAlgorithm = some "md5" ∧
    c3fv.version = some (demoFam "sha1" (strJoin ["x\n"])) ∧
    (∀ dg n, (dg, n) ∈ c3fv.lineHash →
      ∃ line ∈ ["x\n"], demoFam "sha1" line = dg) ∧
    (VersionTable.build (HashObject.make demoFam "sha1") c3fs
        (VersionTable.init ["f"] "md5")).version =
      some (demoFam "sha1" (strJoin (collectLines c3fs (pySort ["f"])))) :=
  build_digests_follow_global demoFam c3fs ["f"] "md5" "sha1" "f" c3fv
    ["x\n"] (by decide) (by decide)
